import Mathlib

/-!
Shallow embedding of the differentiable-quantum-transforms notebooks.

The embedded code:
  - the operation-sequence ("tape") data model: gate applications followed
    by terminal measurement directives;
  - the qfunc transforms `convert_cnots` (notebook 3.1), `overrotate_rx`
    (notebook 3.2) and `unitary_folding` (notebook 3.3.3);
  - the Qiskit `OverrotateRX` transpilation pass from notebook 3.2, which
    updates its input dag in place;
  - the ordinary-least-squares combiner `fit_zne` and the `zne` batch
    transform from notebook 3.3.3;
  - pipeline composition (notebook 3.3.2 only passes a pipeline list to the
    framework, so the composition rule is modelled from the spec).

Numeric parameters are embedded as exact rationals; the framework's
`op.adjoint()` is embedded as an adjoint marker on the operation, matching
the spec's `X_adjoint` notation for folded copies.
-/

/-- A gate application: a name, the ordered target wires, the numeric
parameters, and an adjoint marker (the framework's `op.adjoint()` wraps an
operation; it is embedded as toggling this marker). -/
structure Operation where
  name : String
  wires : List ℕ
  data : List ℚ
  isAdj : Bool := false
deriving DecidableEq

/-- Embedding of the framework's `op.adjoint()`: the adjoint of an
operation, recorded as a marker on the operation. -/
def Operation.adjoint (op : Operation) : Operation :=
  { op with isAdj := !op.isAdj }

/-- A terminal measurement directive: a return kind (expectation,
probability, sample) and an observable label. -/
structure Measurement where
  returnKind : String
  obs : String
deriving DecidableEq

/-- An operation sequence ("tape"): an ordered list of gate applications
followed by an ordered list of measurement directives. -/
structure QuantumTape where
  operations : List Operation
  measurements : List Measurement
deriving DecidableEq

/-- Rounding as performed by `math.round` (numpy semantics): round to the
nearest integer, with exact halves rounded to the even neighbour. -/
def np_round (x : ℚ) : ℤ :=
  if x - (⌊x⌋ : ℚ) = 1 / 2 then (if ⌊x⌋ % 2 = 0 then ⌊x⌋ else ⌊x⌋ + 1)
  else round x

/-- Embedding of `unitary_folding(tape, scale_factor)` from notebook 3.3.3:
replay the operations, then `num_folds = round((scale_factor - 1.0) / 2.0)`
times append the reversed adjoint copy followed by the original operations,
and finally re-apply the measurements.  A negative fold count yields an
empty `range`, hence `Int.toNat`. -/
def unitary_folding (tape : QuantumTape) (scale_factor : ℚ) : QuantumTape :=
  { operations :=
      tape.operations ++
        (List.replicate (np_round ((scale_factor - 1) / 2)).toNat
          (tape.operations.reverse.map Operation.adjoint ++ tape.operations)).flatten,
    measurements := tape.measurements }

/-- Per-operation body of `convert_cnots` from notebook 3.1: a CNOT is
replaced by `H(target) ; CZ(control, target) ; H(target)`; every other
operation is re-applied unchanged. -/
def convert_cnots_op (op : Operation) : List Operation :=
  if op.name = "CNOT" then
    [{ name := "Hadamard", wires := [op.wires.getD 1 0], data := [] },
     { name := "CZ", wires := [op.wires.getD 0 0, op.wires.getD 1 0], data := [] },
     { name := "Hadamard", wires := [op.wires.getD 1 0], data := [] }]
  else [op]

/-- Embedding of the `convert_cnots` qfunc transform from notebook 3.1. -/
def convert_cnots (tape : QuantumTape) : QuantumTape :=
  { operations := tape.operations.flatMap convert_cnots_op,
    measurements := tape.measurements }

/-- Per-operation body of `overrotate_rx` from notebook 3.2: an RX gate is
rebuilt with its angle increased by `epsilon`; every other operation is
re-applied unchanged. -/
def overrotate_rx_op (epsilon : ℚ) (op : Operation) : Operation :=
  if op.name = "RX" then
    { name := "RX", wires := [op.wires.getD 0 0], data := [op.data.getD 0 0 + epsilon] }
  else op

/-- Embedding of the `overrotate_rx` qfunc transform from notebook 3.2. -/
def overrotate_rx (tape : QuantumTape) (epsilon : ℚ) : QuantumTape :=
  { operations := tape.operations.map (overrotate_rx_op epsilon),
    measurements := tape.measurements }

/-- A node of a Qiskit dag, for the `OverrotateRX` transpilation pass of
notebook 3.2: a lowercase gate name and the numeric parameters. -/
structure DagNode where
  name : String
  params : List ℚ
deriving DecidableEq

/-- In-place update `node.op.params[0] += angle` performed by
`OverrotateRX.run` on an rx node (an rx gate always carries one
parameter). -/
def bump_param (angle : ℚ) : List ℚ → List ℚ
  | [] => []
  | p :: ps => (p + angle) :: ps

/-- Embedding of `OverrotateRX.run(dag)` from notebook 3.2.  The source
mutates the dag it was given and returns it, so the embedding is a state
transformer: the value of the caller's dag after the call is the returned
list. -/
def OverrotateRX_run (angle : ℚ) (dag : List DagNode) : List DagNode :=
  dag.map fun node =>
    if node.name = "rx" then { node with params := bump_param angle node.params }
    else node

/-- Numerator `N * Σ(sᵢ·eᵢ) - Σsᵢ · Σeᵢ` of the slope computed by
`fit_zne` in notebook 3.3.3 (`N = len(energies)` as in the source). -/
def fit_zne_numerator (scale_factors energies : List ℚ) : ℚ :=
  (energies.length : ℚ) * (List.zipWith (fun s e => s * e) scale_factors energies).sum
    - scale_factors.sum * energies.sum

/-- Denominator `N * Σsᵢ² - (Σsᵢ)²` of the slope computed by `fit_zne`
in notebook 3.3.3 (`N = len(energies)` as in the source). -/
def fit_zne_denominator (scale_factors energies : List ℚ) : ℚ :=
  (energies.length : ℚ) * (scale_factors.map (fun s => s ^ 2)).sum - scale_factors.sum ^ 2

/-- Embedding of `fit_zne(scale_factors, energies)` from notebook 3.3.3:
the closed-form ordinary-least-squares intercept
`(Σeᵢ - slope · Σsᵢ) / N` with `slope = numerator / denominator`.  The
source performs the division unconditionally; there is no error path. -/
def fit_zne (scale_factors energies : List ℚ) : ℚ :=
  (energies.sum -
      fit_zne_numerator scale_factors energies / fit_zne_denominator scale_factors energies *
        scale_factors.sum) /
    (energies.length : ℚ)

/-- Embedding of the `zne` batch transform from notebook 3.3.3: one folded
tape per scale factor (`mitigation_transform.tape_fn(tape, scale)`), and
the processing function `partial(fit_zne, scale_factors)`. -/
def zne (tape : QuantumTape) (mitigation_transform : QuantumTape → ℚ → QuantumTape)
    (scale_factors : List ℚ) : List QuantumTape × (List ℚ → ℚ) :=
  (scale_factors.map fun scale => mitigation_transform tape scale,
   fun results => fit_zne scale_factors results)

/-- Modelled from the spec: pipeline composition.  Notebook 3.3.2 only
builds the pipeline list and hands it to the framework's compile
decorator; the composition rule itself ("output of transform i feeds
transform i+1") is not under src, so it is modelled from the spec's words
as a left fold of application. -/
def pipeline (transforms : List (QuantumTape → QuantumTape)) (tape : QuantumTape) :
    QuantumTape :=
  transforms.foldl (fun acc t => t acc) tape

/-! ## Helper lemmas -/

lemma flatMap_convert_cnots_eq (ops : List Operation)
    (h : ∀ op ∈ ops, op.name ≠ "CNOT") : ops.flatMap convert_cnots_op = ops := by
  induction ops with
  | nil => rfl
  | cons op rest ih =>
    have h1 : op.name ≠ "CNOT" := h op (List.mem_cons_self op rest)
    have h2 := ih fun o ho => h o (List.mem_cons_of_mem _ ho)
    simp [convert_cnots_op, h1, h2]

lemma map_overrotate_rx_eq (epsilon : ℚ) (ops : List Operation)
    (h : ∀ op ∈ ops, op.name ≠ "RX") : ops.map (overrotate_rx_op epsilon) = ops := by
  induction ops with
  | nil => rfl
  | cons op rest ih =>
    have h1 : op.name ≠ "RX" := h op (List.mem_cons_self op rest)
    have h2 := ih fun o ho => h o (List.mem_cons_of_mem _ ho)
    simp [overrotate_rx_op, h1, h2]

/-! ## Claim theorems -/

/-- C3: applying `unitary_folding` with scale factor 3.0 to the sequence
`[RX(0.3), CNOT]` gives `num_folds = round((3.0 - 1.0) / 2.0) = 1` and the
operation sequence `[RX(0.3), CNOT, CNOT_adjoint, RX(0.3)_adjoint,
RX(0.3), CNOT]`, followed by the original measurement directives. -/
theorem unitary_folding_scale_three_example :
    np_round (((3 : ℚ) - 1) / 2) = 1 ∧
    unitary_folding
        ⟨[⟨"RX", [0], [3/10], false⟩, ⟨"CNOT", [0, 1], [], false⟩],
         [⟨"expval", "Z0Z1"⟩]⟩ 3 =
      ⟨[⟨"RX", [0], [3/10], false⟩, ⟨"CNOT", [0, 1], [], false⟩,
        Operation.adjoint ⟨"CNOT", [0, 1], [], false⟩,
        Operation.adjoint ⟨"RX", [0], [3/10], false⟩,
        ⟨"RX", [0], [3/10], false⟩, ⟨"CNOT", [0, 1], [], false⟩],
       [⟨"expval", "Z0Z1"⟩]⟩ := by
  have h1 : np_round (((3 : ℚ) - 1) / 2) = 1 := by norm_num [np_round, round_eq]
  exact ⟨h1, by simp [unitary_folding, h1]⟩

/-- C4: applying the `zne` batch transform with scale factors
`[1.0, 3.0, 5.0]` to a sequence with one measurement produces exactly 3
branch sequences, one per scale factor in the same order, and the
combination function is `fit_zne` applied to those scale factors, hence
consumes the results in the same order as the branches. -/
theorem zne_forks_three_branches (tape : QuantumTape)
    (mitigation_transform : QuantumTape → ℚ → QuantumTape)
    (h : tape.measurements.length = 1) :
    (zne tape mitigation_transform [1, 3, 5]).1.length = 3 ∧
    (zne tape mitigation_transform [1, 3, 5]).1 =
      [mitigation_transform tape 1, mitigation_transform tape 3,
       mitigation_transform tape 5] ∧
    (zne tape mitigation_transform [1, 3, 5]).2 = fit_zne [1, 3, 5] :=
  ⟨rfl, rfl, rfl⟩

/-- C4 witness: the branching of `zne` at a concrete one-measurement tape
with `unitary_folding` as the mitigation transform. -/
theorem zne_forks_three_branches_witness :
    (QuantumTape.measurements
        ⟨[⟨"RX", [0], [1/2], false⟩], [⟨"expval", "Z0"⟩]⟩).length = 1 ∧
    (zne ⟨[⟨"RX", [0], [1/2], false⟩], [⟨"expval", "Z0"⟩]⟩ unitary_folding
        [1, 3, 5]).1 =
      [unitary_folding ⟨[⟨"RX", [0], [1/2], false⟩], [⟨"expval", "Z0"⟩]⟩ 1,
       unitary_folding ⟨[⟨"RX", [0], [1/2], false⟩], [⟨"expval", "Z0"⟩]⟩ 3,
       unitary_folding ⟨[⟨"RX", [0], [1/2], false⟩], [⟨"expval", "Z0"⟩]⟩ 5] :=
  ⟨rfl,
   (zne_forks_three_branches ⟨[⟨"RX", [0], [1/2], false⟩], [⟨"expval", "Z0"⟩]⟩
      unitary_folding rfl).2.1⟩

/-- C5: the measurement-preserving transforms implemented here — unitary
folding at any scale factor, and CNOT conversion — leave the measurement
directives of the tape unchanged and in order. -/
theorem transforms_preserve_measurements :
    (∀ (t : QuantumTape) (s : ℚ),
        (unitary_folding t s).measurements = t.measurements) ∧
    (∀ t : QuantumTape, (convert_cnots t).measurements = t.measurements) :=
  ⟨fun _ _ => rfl, fun _ => rfl⟩

/-- C7: a pipeline of single-sequence transforms is function composition:
`pipeline [t1, t2] seq = t2 (t1 seq)`, and more generally splitting a
pipeline anywhere gives sequential application, so a pipeline
`[t1, ..., tk]` equals `tk (... (t1 seq) ...)`. -/
theorem pipeline_is_composition :
    (∀ (t1 t2 : QuantumTape → QuantumTape) (seq : QuantumTape),
        pipeline [t1, t2] seq = t2 (t1 seq)) ∧
    (∀ (ts1 ts2 : List (QuantumTape → QuantumTape)) (seq : QuantumTape),
        pipeline (ts1 ++ ts2) seq = pipeline ts2 (pipeline ts1 seq)) :=
  ⟨fun _ _ _ => rfl, fun ts1 ts2 seq => List.foldl_append _ _ _ _⟩

/-- C9: a scale factor whose rounded fold count is non-positive (such as
1.0) makes `unitary_folding` the identity on the tape, and the output
depends on the scale factor only through the rounded fold count
`round((s - 1.0) / 2.0)`. -/
theorem unitary_folding_fold_count :
    (∀ (t : QuantumTape) (s : ℚ),
        np_round ((s - 1) / 2) ≤ 0 → unitary_folding t s = t) ∧
    (∀ (t : QuantumTape) (s s' : ℚ),
        np_round ((s - 1) / 2) = np_round ((s' - 1) / 2) →
        unitary_folding t s = unitary_folding t s') := by
  constructor
  · intro t s h
    have hz : (np_round ((s - 1) / 2)).toNat = 0 := Int.toNat_of_nonpos h
    cases t with
    | mk ops ms => simp [unitary_folding, hz]
  · intro t s s' h
    simp [unitary_folding, h]

/-- C9 witness: scale factor 1.0 folds zero times and returns the tape
unchanged, and scale factors 3.0 and 3.5 round to the same fold count and
give identical outputs. -/
theorem unitary_folding_fold_count_witness :
    np_round (((1 : ℚ) - 1) / 2) ≤ 0 ∧
    unitary_folding ⟨[⟨"RX", [0], [3/10], false⟩], [⟨"expval", "Z0"⟩]⟩ 1 =
      ⟨[⟨"RX", [0], [3/10], false⟩], [⟨"expval", "Z0"⟩]⟩ ∧
    np_round (((3 : ℚ) - 1) / 2) = np_round (((7/2 : ℚ) - 1) / 2) ∧
    unitary_folding ⟨[⟨"RX", [0], [3/10], false⟩], [⟨"expval", "Z0"⟩]⟩ 3 =
      unitary_folding ⟨[⟨"RX", [0], [3/10], false⟩], [⟨"expval", "Z0"⟩]⟩ (7/2) :=
  ⟨by norm_num [np_round, round_eq],
   unitary_folding_fold_count.1 _ 1 (by norm_num [np_round, round_eq]),
   by norm_num [np_round, round_eq],
   unitary_folding_fold_count.2 _ 3 (7/2) (by norm_num [np_round, round_eq])⟩

/-- C6: a transform applied to a sequence containing none of its matched
operation names returns the sequence unchanged, operation for operation:
`convert_cnots` on a CNOT-free sequence and `overrotate_rx` on an RX-free
sequence are the identity. -/
theorem passthrough_unmatched :
    (∀ t : QuantumTape,
        (∀ op ∈ t.operations, op.name ≠ "CNOT") → convert_cnots t = t) ∧
    (∀ (t : QuantumTape) (epsilon : ℚ),
        (∀ op ∈ t.operations, op.name ≠ "RX") → overrotate_rx t epsilon = t) := by
  constructor
  · intro t h
    cases t with
    | mk ops ms => simp [convert_cnots, flatMap_convert_cnots_eq ops h]
  · intro t epsilon h
    cases t with
    | mk ops ms => simp [overrotate_rx, map_overrotate_rx_eq epsilon ops h]

/-- C6 witness: a sequence holding only a Hadamard gate matches neither
transform and passes through both unchanged. -/
theorem passthrough_unmatched_witness :
    convert_cnots ⟨[⟨"Hadamard", [0], [], false⟩], [⟨"expval", "Z0"⟩]⟩ =
      ⟨[⟨"Hadamard", [0], [], false⟩], [⟨"expval", "Z0"⟩]⟩ ∧
    overrotate_rx ⟨[⟨"Hadamard", [0], [], false⟩], [⟨"expval", "Z0"⟩]⟩ (1/10) =
      ⟨[⟨"Hadamard", [0], [], false⟩], [⟨"expval", "Z0"⟩]⟩ :=
  ⟨passthrough_unmatched.1 _ (by simp), passthrough_unmatched.2 _ _ (by simp)⟩

/-- C8 counterexample: the Qiskit `OverrotateRX` pass does mutate its
input sequence — running it with angle 1 on a dag holding one rx(0) node
leaves the caller's dag different from what it was before the call, so
the claim that no transform mutates its input fails on this transform. -/
theorem overrotate_pass_purity_cex :
    OverrotateRX_run 1 [⟨"rx", [0]⟩] ≠ [⟨"rx", [0]⟩] := by
  intro h
  have h1 := congrArg (fun l => (l.headD ⟨"rx", []⟩).params.headD 0) h
  simp [OverrotateRX_run, bump_param] at h1

/-- C8 amended: the PennyLane qfunc transforms construct fresh sequences,
but the Qiskit `OverrotateRX` pass updates its input dag in place, adding
its angle to the first parameter of every rx node; hence for any nonzero
angle and any dag containing an rx node with a parameter, the dag after
the call differs from the dag before it. -/
theorem overrotate_pass_mutates_input (angle : ℚ) (dag : List DagNode)
    (hrx : ∃ n ∈ dag, n.name = "rx" ∧ n.params ≠ []) (ha : angle ≠ 0) :
    OverrotateRX_run angle dag ≠ dag := by
  induction dag with
  | nil => simp at hrx
  | cons node rest ih =>
    intro heq
    simp only [OverrotateRX_run, List.map_cons, List.cons.injEq] at heq
    obtain ⟨h1, h2⟩ := heq
    obtain ⟨n, hn, hname, hparams⟩ := hrx
    rcases List.mem_cons.mp hn with rfl | hmem
    · rw [if_pos hname] at h1
      cases n with
      | mk nm ps =>
        cases ps with
        | nil => exact hparams rfl
        | cons p pt =>
          have h3 := congrArg DagNode.params h1
          simp only [bump_param] at h3
          have h4 : p + angle = p := ((List.cons.injEq _ _ _ _).mp h3).1
          exact ha (by linarith)
    · exact ih ⟨n, hmem, hname, hparams⟩ h2

/-- C8 witness: the amended mutation statement at the concrete input of
the counterexample. -/
theorem overrotate_pass_mutates_input_witness :
    (1 : ℚ) ≠ 0 ∧ OverrotateRX_run 1 [⟨"rx", [0]⟩] ≠ [⟨"rx", [0]⟩] :=
  ⟨by norm_num,
   overrotate_pass_mutates_input 1 [⟨"rx", [0]⟩]
     ⟨⟨"rx", [0]⟩, by simp, rfl, by simp⟩ (by norm_num)⟩

/-- C1: with identical scale factors `[2, 2, 2]` the ordinary-least-squares
denominator computed by `fit_zne` is zero, yet `fit_zne` performs the
division anyway and returns a value — the code has no `DegenerateFitError`
path at all (in floating point the division propagates NaN; in this exact
embedding the division-by-zero convention yields a junk value). -/
theorem fit_zne_degenerate_unchecked :
    fit_zne_denominator [2, 2, 2] [1, 1, 1] = 0 ∧
    fit_zne [2, 2, 2] [1, 1, 1] = 1 := by
  constructor
  · norm_num [fit_zne_denominator]
  · norm_num [fit_zne, fit_zne_numerator, fit_zne_denominator]

/-! ## Ordinary-least-squares lemmas -/

lemma sum_map_sq_shift (c d : ℚ) (l : List ℚ) :
    (l.map fun s => (c * s - d) ^ 2).sum =
      c ^ 2 * (l.map fun s => s ^ 2).sum - 2 * c * d * l.sum + (l.length : ℚ) * d ^ 2 := by
  induction l with
  | nil => simp
  | cons x xs ih =>
    simp only [List.map_cons, List.sum_cons, List.length_cons, ih]
    push_cast
    ring

lemma sum_map_sq_nonneg (f : ℚ → ℚ) (l : List ℚ) :
    0 ≤ (l.map fun s => f s ^ 2).sum := by
  induction l with
  | nil => simp
  | cons x xs ih =>
    simp only [List.map_cons, List.sum_cons]
    exact add_nonneg (sq_nonneg _) ih

lemma sum_map_sq_pos (f : ℚ → ℚ) (l : List ℚ) (h : ∃ x ∈ l, f x ≠ 0) :
    0 < (l.map fun s => f s ^ 2).sum := by
  induction l with
  | nil => simp at h
  | cons x xs ih =>
    simp only [List.map_cons, List.sum_cons]
    obtain ⟨y, hy, hfy⟩ := h
    rcases List.mem_cons.mp hy with rfl | hmem
    · have h1 : 0 < f y ^ 2 :=
        lt_of_le_of_ne (sq_nonneg _) (Ne.symm (pow_ne_zero 2 hfy))
      have h2 := sum_map_sq_nonneg f xs
      linarith
    · have h1 := ih ⟨y, hmem, hfy⟩
      have h2 := sq_nonneg (f x)
      linarith

lemma denom_pos_of_ne (l : List ℚ) (hne : ∃ a ∈ l, ∃ c ∈ l, a ≠ c) :
    0 < (l.length : ℚ) * (l.map fun s => s ^ 2).sum - l.sum ^ 2 := by
  obtain ⟨a, ha, c, hc, hac⟩ := hne
  have hlpos : 0 < l.length := List.length_pos.mpr (List.ne_nil_of_mem ha)
  have hn : (0 : ℚ) < (l.length : ℚ) := by exact_mod_cast hlpos
  have hex : ∃ x ∈ l, (l.length : ℚ) * x - l.sum ≠ 0 := by
    by_contra hcon
    push_neg at hcon
    have h1 := hcon a ha
    have h2 := hcon c hc
    apply hac
    have h3 : (l.length : ℚ) * a = (l.length : ℚ) * c := by linarith
    exact mul_left_cancel₀ hn.ne' h3
  have hpos := sum_map_sq_pos (fun x => (l.length : ℚ) * x - l.sum) l hex
  have hkey := sum_map_sq_shift ((l.length : ℚ)) l.sum l
  nlinarith [hpos, hkey, hn]

lemma sum_map_affine (m b : ℚ) (l : List ℚ) :
    (l.map fun x => m * x + b).sum = m * l.sum + (l.length : ℚ) * b := by
  induction l with
  | nil => simp
  | cons x xs ih =>
    simp only [List.map_cons, List.sum_cons, List.length_cons, ih]
    push_cast
    ring

lemma sum_zipWith_mul_affine (m b : ℚ) (l : List ℚ) :
    (List.zipWith (fun s e => s * e) l (l.map fun x => m * x + b)).sum =
      m * (l.map fun x => x ^ 2).sum + b * l.sum := by
  induction l with
  | nil => simp
  | cons x xs ih =>
    simp only [List.map_cons, List.zipWith_cons_cons, List.sum_cons, ih]
    ring

lemma sum_zipWith_lin (a b : ℚ) :
    ∀ (e f : List ℚ), e.length = f.length →
      (List.zipWith (fun u v => a * u + b * v) e f).sum = a * e.sum + b * f.sum
  | [], [], _ => by simp
  | [], _ :: _, h => by simp at h
  | _ :: _, [], h => by simp at h
  | u :: us, v :: vs, h => by
    simp only [List.zipWith_cons_cons, List.sum_cons]
    rw [sum_zipWith_lin a b us vs (by simpa using h)]
    ring

lemma sum_zipWith_mul_lin (a b : ℚ) :
    ∀ (s e f : List ℚ), e.length = s.length → f.length = s.length →
      (List.zipWith (fun u v => u * v) s (List.zipWith (fun u v => a * u + b * v) e f)).sum =
        a * (List.zipWith (fun u v => u * v) s e).sum +
          b * (List.zipWith (fun u v => u * v) s f).sum
  | [], _, _, _, _ => by simp
  | _ :: _, [], _, he, _ => by simp at he
  | _ :: _, _ :: _, [], _, hf => by simp at hf
  | x :: xs, u :: us, v :: vs, he, hf => by
    simp only [List.zipWith_cons_cons, List.sum_cons]
    rw [sum_zipWith_mul_lin a b xs us vs (by simpa using he) (by simpa using hf)]
    ring

/-- C2: on scale factors that are not all identical, `fit_zne` returns
the intercept of the ordinary-least-squares linear fit; in particular on
exactly linear data `eᵢ = m·sᵢ + b` the returned value is `b`. -/
theorem fit_zne_returns_exact_intercept (scale_factors : List ℚ) (m b : ℚ)
    (hlen : 2 ≤ scale_factors.length)
    (hne : ∃ a ∈ scale_factors, ∃ c ∈ scale_factors, a ≠ c) :
    fit_zne scale_factors (scale_factors.map fun s => m * s + b) = b := by
  have hD := denom_pos_of_ne scale_factors hne
  have hn : (0 : ℚ) < (scale_factors.length : ℚ) := by
    have h0 : 0 < scale_factors.length := lt_of_lt_of_le (by norm_num) hlen
    exact_mod_cast h0
  unfold fit_zne fit_zne_numerator fit_zne_denominator
  rw [List.length_map, sum_map_affine, sum_zipWith_mul_affine]
  set n : ℚ := (scale_factors.length : ℚ)
  set T := scale_factors.sum
  set Q := (scale_factors.map fun s => s ^ 2).sum
  have hD' : n * Q - T ^ 2 ≠ 0 := ne_of_gt hD
  field_simp
  ring

/-- C2 witness: scale factors `[1, 3, 5, 7, 9]` with the exactly linear
energies `eᵢ = 2·sᵢ + 5` give the intercept 5. -/
theorem fit_zne_returns_exact_intercept_witness :
    2 ≤ ([1, 3, 5, 7, 9] : List ℚ).length ∧
    fit_zne [1, 3, 5, 7, 9] (([1, 3, 5, 7, 9] : List ℚ).map fun s => 2 * s + 5) = 5 :=
  ⟨by norm_num,
   fit_zne_returns_exact_intercept [1, 3, 5, 7, 9] 2 5 (by norm_num)
     ⟨1, by norm_num, 3, by norm_num, by norm_num⟩⟩

/-- C10: for fixed scale factors of length n that are not all identical,
`fit_zne` is a linear function of the energies vector:
`fit_zne s (a·e + b·e') = a · fit_zne s e + b · fit_zne s e'` for energy
vectors of length n. -/
theorem fit_zne_linear_in_energies (scale_factors e f : List ℚ) (a b : ℚ)
    (he : e.length = scale_factors.length) (hf : f.length = scale_factors.length)
    (hlen : 2 ≤ scale_factors.length)
    (hne : ∃ x ∈ scale_factors, ∃ y ∈ scale_factors, x ≠ y) :
    fit_zne scale_factors (List.zipWith (fun u v => a * u + b * v) e f) =
      a * fit_zne scale_factors e + b * fit_zne scale_factors f := by
  have hD := denom_pos_of_ne scale_factors hne
  have hn : (0 : ℚ) < (scale_factors.length : ℚ) := by
    have h0 : 0 < scale_factors.length := lt_of_lt_of_le (by norm_num) hlen
    exact_mod_cast h0
  have hzlen : (List.zipWith (fun u v => a * u + b * v) e f).length =
      scale_factors.length := by
    rw [List.length_zipWith, he, hf, min_self]
  unfold fit_zne fit_zne_numerator fit_zne_denominator
  rw [hzlen, he, hf, sum_zipWith_lin a b e f (he.trans hf.symm),
      sum_zipWith_mul_lin a b scale_factors e f he hf]
  set n : ℚ := (scale_factors.length : ℚ)
  set T := scale_factors.sum
  set Q := (scale_factors.map fun s => s ^ 2).sum
  set P := (List.zipWith (fun u v => u * v) scale_factors e).sum
  set R := (List.zipWith (fun u v => u * v) scale_factors f).sum
  have hD' : n * Q - T ^ 2 ≠ 0 := ne_of_gt hD
  field_simp
  ring

/-- C10 witness: linearity of the combiner at the concrete scale factors
`[1, 3]`, energies `[1, 2]` and `[5, 7]`, and scalars 2 and -1. -/
theorem fit_zne_linear_in_energies_witness :
    ([1, 2] : List ℚ).length = ([1, 3] : List ℚ).length ∧
    2 ≤ ([1, 3] : List ℚ).length ∧
    fit_zne [1, 3] (List.zipWith (fun u v => 2 * u + (-1) * v) [1, 2] [5, 7]) =
      2 * fit_zne [1, 3] [1, 2] + (-1) * fit_zne [1, 3] [5, 7] :=
  ⟨rfl, by norm_num,
   fit_zne_linear_in_energies [1, 3] [1, 2] [5, 7] 2 (-1) rfl rfl (by norm_num)
     ⟨1, by norm_num, 3, by norm_num, by norm_num⟩⟩
